import Mathlib

set_option maxHeartbeats 1000000

namespace LovsangSlides

/-!
Shallow embedding of the text pipeline of `src/app.py` (a Flask app that
turns ChordPro lyric sheets into slide-deck markdown).  Python strings are
modelled as `List Char`; Python ints as `Int` (with Python floor
division/modulo as `Int.fdiv`/`Int.fmod`); functions that can raise
exceptions return `Option`.
-/

/-- Exact ceiling of the rational `a / b` (for `b ≠ 0`); models Python's
`math.ceil(a / b)` on ints, using `ceil x = -floor (-x)` and Python's
floor division `Int.fdiv`. -/
def pyCeilDiv (a b : Int) : Int := -((-a).fdiv b)

/-- The slicing loop of `chunk_even` (`for i in range(num): ...`):
`i` is the loop index, `idx` the running start offset, the third argument
the number of iterations left; `sz = base + (1 if i < rem else 0)` and the
slice `g[idx:idx+sz]` is `(g.drop idx).take sz.toNat`. -/
def chunkGo {α : Type} (g : List α) (base rem : Int) : Nat → Nat → Nat → List (List α)
  | _, _, 0 => []
  | i, idx, Nat.succ k =>
    let sz : Int := base + (if (i : Int) < rem then 1 else 0)
    ((g.drop idx).take sz.toNat) :: chunkGo g base rem (i + 1) (idx + sz.toNat) k

/-- Embedding of `chunk_even(g, maxl)` from `src/app.py`.
`none` models a Python `ZeroDivisionError`: raised at `math.ceil(n / maxl)`
when `maxl = 0`, and at `n // num` when `num = 0`.  `range(num)` for
`num ≤ 0` is empty, hence the iteration count `num.toNat`. -/
def chunk_even {α : Type} (g : List α) (maxl : Int) : Option (List (List α)) :=
  let n : Int := g.length
  if n ≤ maxl then some [g]
  else if maxl = 0 then none
  else
    let num : Int := pyCeilDiv n maxl
    if num = 0 then none
    else some (chunkGo g (n.fdiv num) (n.fmod num) 0 0 num.toNat)

/-- Ceiling division on naturals: `numChunksN n m = ⌈n / m⌉` (`m ≥ 1`), the number of chunks
`chunk_even` produces in its splitting branch. -/
def numChunksN (n m : Nat) : Nat := (n + m - 1) / m

example : chunk_even [1, 2, 3, 4, 5, 6, 7] (3 : Int) =
    some [[1, 2, 3], [4, 5], [6, 7]] := by decide

example : chunk_even [1, 2, 3, 4, 5] (5 : Int) = some [[1, 2, 3, 4, 5]] := by decide

example : chunk_even [1] (-2 : Int) = none := by decide

example : chunk_even [1, 2, 3] (-2 : Int) = some [] := by decide

example : chunk_even [1, 2] (0 : Int) = none := by decide

/-- Proof-side copy of the slicing loop with `Nat` arithmetic (valid for the
`maxl ≥ 1` branch, where `base` and `rem` are nonnegative). -/
def chunkGoN {α : Type} (g : List α) (b r : Nat) : Nat → Nat → Nat → List (List α)
  | _, _, 0 => []
  | i, idx, Nat.succ k =>
    let sz : Nat := b + (if i < r then 1 else 0)
    ((g.drop idx).take sz) :: chunkGoN g b r (i + 1) (idx + sz) k

/-- Total number of elements placed by `k` loop iterations starting at
loop index `i`. -/
def sliceSum (b r : Nat) : Nat → Nat → Nat
  | _, 0 => 0
  | i, Nat.succ k => (b + if i < r then 1 else 0) + sliceSum b r (i + 1) k

theorem chunkGo_eq_chunkGoN {α : Type} (g : List α) (b r : Nat) :
    ∀ k i idx, chunkGo g (b : Int) (r : Int) i idx k = chunkGoN g b r i idx k := by
  intro k
  induction k with
  | zero => intro i idx; rfl
  | succ k ih =>
    intro i idx
    have hsz : ((b : Int) + if (i : Int) < (r : Int) then 1 else 0).toNat
        = b + (if i < r then 1 else 0) := by
      by_cases h : i < r
      · simp only [h, if_true, Nat.cast_lt.2 h]
        omega
      · have h' : ¬ ((i : Int) < (r : Int)) := by exact_mod_cast h
        simp only [h, h', if_false]
        omega
    simp only [chunkGo, chunkGoN, hsz]
    exact congrArg _ (ih (i + 1) _)

theorem chunkGoN_length {α : Type} (g : List α) (b r : Nat) :
    ∀ k i idx, (chunkGoN g b r i idx k).length = k := by
  intro k
  induction k with
  | zero => intro i idx; rfl
  | succ k ih => intro i idx; simp only [chunkGoN, List.length_cons, ih]

theorem chunkGoN_join {α : Type} (g : List α) (b r : Nat) :
    ∀ k i idx, (chunkGoN g b r i idx k).flatten = (g.drop idx).take (sliceSum b r i k) := by
  intro k
  induction k with
  | zero => intro i idx; simp [chunkGoN, sliceSum]
  | succ k ih =>
    intro i idx
    simp only [chunkGoN, sliceSum, List.flatten_cons, ih (i + 1)]
    rw [List.take_add (g.drop idx) (b + if i < r then 1 else 0) (sliceSum b r (i + 1) k),
      List.drop_drop]

theorem sliceSum_min (b r : Nat) :
    ∀ k i, sliceSum b r i k + min r i = k * b + min r (i + k) := by
  intro k
  induction k with
  | zero => intro i; simp [sliceSum]
  | succ k ih =>
    intro i
    have step : (if i < r then 1 else 0) + min r i = min r (i + 1) := by
      by_cases h : i < r <;> simp [h] <;> omega
    have hmul : (k + 1) * b = k * b + b := by ring
    have := ih (i + 1)
    simp only [sliceSum]
    omega

/-- With `b = n / k`, `r = n % k`, `r < k`, the loop places exactly `n`
elements. -/
theorem sliceSum_div_mod (n k : Nat) (hk : 0 < k) :
    sliceSum (n / k) (n % k) 0 k = n := by
  have h := sliceSum_min (n / k) (n % k) k 0
  have hr : n % k < k := Nat.mod_lt _ hk
  have hdm := Nat.div_add_mod n k
  simp only [Nat.min_zero, Nat.zero_add, Nat.add_zero] at h
  omega

/-- The `j`-th chunk of the loop has exactly its nominal size, provided the
list is long enough. -/
theorem chunkGoN_get_length {α : Type} (g : List α) (b r : Nat) :
    ∀ k i idx, idx + sliceSum b r i k ≤ g.length →
      ∀ j (hj : j < k),
        ((chunkGoN g b r i idx k).get ⟨j, by rw [chunkGoN_length]; exact hj⟩).length
          = b + (if i + j < r then 1 else 0) := by
  intro k
  induction k with
  | zero => intro i idx _ j hj; exact absurd hj (Nat.not_lt_zero j)
  | succ k ih =>
    intro i idx hle j hj
    have hsz : b + (if i < r then 1 else 0) + sliceSum b r (i + 1) k
        = sliceSum b r i (k + 1) := by simp [sliceSum]
    match j with
    | 0 =>
      show ((g.drop idx).take (b + if i < r then 1 else 0)).length = _
      have h1 : idx + (b + if i < r then 1 else 0) ≤ g.length := by omega
      simp only [List.length_take, List.length_drop, Nat.add_zero]
      omega
    | Nat.succ j' =>
      have hj' : j' < k := Nat.lt_of_succ_lt_succ hj
      have := ih (i + 1) (idx + (b + if i < r then 1 else 0)) (by omega) j' hj'
      show ((chunkGoN g b r (i + 1) _ k).get ⟨j', _⟩).length = _
      rw [this]
      have : i + 1 + j' = i + (j' + 1) := by omega
      rw [this]

/-- The value `pyCeilDiv n m` (for `m > 0`) satisfies the defining inequalities of the
ceiling of `n / m`. -/
theorem pyCeilDiv_char (n m : Int) (hm : 0 < m) :
    n ≤ pyCeilDiv n m * m ∧ (pyCeilDiv n m - 1) * m < n := by
  have hdm := Int.fdiv_add_fmod (-n) m
  have h0 : 0 ≤ (-n).fmod m := Int.fmod_nonneg' (-n) hm
  have h1 : (-n).fmod m < m := Int.fmod_lt_of_pos (-n) hm
  unfold pyCeilDiv
  constructor
  · nlinarith
  · nlinarith

theorem numChunksN_mul_ge (n m : Nat) (hm : 0 < m) : n ≤ numChunksN n m * m := by
  have hq := Nat.div_add_mod (n + m - 1) m
  have hr : (n + m - 1) % m < m := Nat.mod_lt _ hm
  unfold numChunksN
  rw [Nat.mul_comm]
  generalize m * ((n + m - 1) / m) = X at hq ⊢
  omega

theorem numChunksN_mul_lt (n m : Nat) (hm : 0 < m) : numChunksN n m * m < n + m := by
  have hq := Nat.div_add_mod (n + m - 1) m
  have hr : (n + m - 1) % m < m := Nat.mod_lt _ hm
  unfold numChunksN
  rw [Nat.mul_comm]
  generalize m * ((n + m - 1) / m) = X at hq ⊢
  omega

/-- The value `(n + m - 1) / m` (for `m > 0`) satisfies the same defining
inequalities. -/
theorem numChunksN_char (n m : Nat) (hm : 0 < m) :
    (n : Int) ≤ (numChunksN n m : Int) * m ∧ ((numChunksN n m : Int) - 1) * m < n := by
  have hA : n ≤ numChunksN n m * m := numChunksN_mul_ge n m hm
  have hB : numChunksN n m * m < n + m := numChunksN_mul_lt n m hm
  constructor
  · exact_mod_cast hA
  · have : ((numChunksN n m : Int) - 1) * m = (numChunksN n m : Int) * m - m := by ring
    rw [this]
    have : ((numChunksN n m * m : Nat) : Int) < (n : Int) + m := by exact_mod_cast hB
    push_cast at this
    linarith

theorem ceil_eq_of_char {m q1 q2 n : Int} (hm : 0 < m)
    (ha1 : n ≤ q1 * m) (hb1 : (q1 - 1) * m < n)
    (ha2 : n ≤ q2 * m) (hb2 : (q2 - 1) * m < n) : q1 = q2 := by
  have h1 : (q1 - 1) * m < q2 * m := lt_of_lt_of_le hb1 ha2
  have h2 : (q2 - 1) * m < q1 * m := lt_of_lt_of_le hb2 ha1
  have g1 : q1 - 1 < q2 := lt_of_mul_lt_mul_right h1 (le_of_lt hm)
  have g2 : q2 - 1 < q1 := lt_of_mul_lt_mul_right h2 (le_of_lt hm)
  omega

theorem pyCeilDiv_eq_numChunksN (n m : Nat) (hm : 0 < m) :
    pyCeilDiv n m = (numChunksN n m : Int) := by
  have hmI : (0 : Int) < m := by exact_mod_cast hm
  obtain ⟨a1, b1⟩ := pyCeilDiv_char n m hmI
  obtain ⟨a2, b2⟩ := numChunksN_char n m hm
  exact ceil_eq_of_char hmI a1 b1 a2 b2

theorem numChunksN_pos (n m : Nat) (hn : 0 < n) (hm : 0 < m) :
    0 < numChunksN n m := by
  unfold numChunksN
  apply Nat.div_pos <;> omega

/-- In the splitting branch (`1 ≤ maxl < n`), `chunk_even` runs the loop
with the natural-number values `num = ⌈n/maxl⌉`, `base = n / num`,
`rem = n % num`. -/
theorem chunk_even_pos_split {α : Type} (g : List α) (maxl : Int) (h1 : 1 ≤ maxl)
    (h2 : maxl < (g.length : Int)) :
    chunk_even g maxl
      = some (chunkGoN g (g.length / numChunksN g.length maxl.toNat)
          (g.length % numChunksN g.length maxl.toNat) 0 0
          (numChunksN g.length maxl.toNat)) := by
  set n := g.length with hn
  set m := maxl.toNat with hmdef
  have hm0 : 0 < m := by omega
  have hmeq : (m : Int) = maxl := Int.toNat_of_nonneg (by omega)
  have hn0 : 0 < n := by omega
  set q := numChunksN n m with hq
  have hq0 : 0 < q := numChunksN_pos n m hn0 hm0
  have hnum : pyCeilDiv n maxl = (q : Int) := by
    rw [← hmeq]; exact pyCeilDiv_eq_numChunksN n m hm0
  unfold chunk_even
  rw [if_neg (by omega), if_neg (by omega)]
  simp only [hnum]
  rw [if_neg (by exact_mod_cast Nat.pos_iff_ne_zero.mp hq0)]
  have hdiv : (n : Int).fdiv q = ((n / q : Nat) : Int) := by
    rw [Int.fdiv_eq_ediv _ (by positivity), Int.ofNat_ediv]
  have hmod : (n : Int).fmod q = ((n % q : Nat) : Int) := by
    rw [Int.fmod_eq_emod _ (by positivity), Int.ofNat_emod]
  rw [hdiv, hmod, Int.toNat_natCast]
  rw [chunkGo_eq_chunkGoN]

/-- C1 — Chunker round-trip: for every group `g` of `n ≥ 1` lines and every
`maxLines ≥ 1`, concatenating the chunks returned by `chunk_even g maxLines`
in order yields exactly `g`: no line is dropped, duplicated, or
reordered. -/
theorem chunk_even_roundtrip {α : Type} (g : List α) (maxl : Int)
    (hg : g ≠ []) (hm : 1 ≤ maxl) :
    ∃ cs, chunk_even g maxl = some cs ∧ cs.flatten = g := by
  by_cases h : (g.length : Int) ≤ maxl
  · refine ⟨[g], ?_, by simp⟩
    unfold chunk_even
    rw [if_pos h]
  · push_neg at h
    refine ⟨_, chunk_even_pos_split g maxl hm h, ?_⟩
    rw [chunkGoN_join]
    have hn0 : 0 < g.length := List.length_pos.mpr hg
    have hq : 0 < numChunksN g.length maxl.toNat :=
      numChunksN_pos _ _ hn0 (by omega)
    rw [sliceSum_div_mod _ _ hq]
    simp

theorem chunk_even_roundtrip_witness :
    ([0, 1, 2] : List Nat) ≠ [] ∧ (1 : Int) ≤ 2 ∧
      ∃ cs, chunk_even ([0, 1, 2] : List Nat) 2 = some cs ∧ cs.flatten = [0, 1, 2] :=
  ⟨by decide, by decide, chunk_even_roundtrip [0, 1, 2] 2 (by decide) (by decide)⟩

/-- C2 — Chunk count and size distribution: with `maxLines ≥ 1`, if
`n ≤ maxLines` then `chunk_even` returns exactly the one chunk `[g]`;
if `n > maxLines` it returns `numChunks = ⌈n / maxLines⌉` chunks, the
first `rem = n % numChunks` of size `base + 1` and the rest of size
`base = n / numChunks`; consequently any two chunk sizes differ by at
most 1. -/
theorem chunk_even_size_distribution {α : Type} (g : List α) (maxl : Int)
    (hm : 1 ≤ maxl) :
    ((g.length : Int) ≤ maxl → chunk_even g maxl = some [g]) ∧
    (maxl < (g.length : Int) →
      ∃ cs, chunk_even g maxl = some cs ∧
        cs.length = numChunksN g.length maxl.toNat ∧
        (∀ j (hj : j < cs.length),
          (cs.get ⟨j, hj⟩).length
            = g.length / numChunksN g.length maxl.toNat
              + (if j < g.length % numChunksN g.length maxl.toNat then 1 else 0)) ∧
        (∀ c1 ∈ cs, ∀ c2 ∈ cs, c1.length ≤ c2.length + 1)) := by
  constructor
  · intro h
    unfold chunk_even
    rw [if_pos h]
  · intro h
    have hq0 : 0 < numChunksN g.length maxl.toNat :=
      numChunksN_pos g.length maxl.toNat (by omega) (by omega)
    have hle : 0 + sliceSum (g.length / numChunksN g.length maxl.toNat)
        (g.length % numChunksN g.length maxl.toNat) 0
        (numChunksN g.length maxl.toNat) ≤ g.length := by
      rw [sliceSum_div_mod _ _ hq0]
      omega
    refine ⟨_, chunk_even_pos_split g maxl hm h, chunkGoN_length _ _ _ _ _ _, ?_, ?_⟩
    · intro j hj
      have hjq : j < numChunksN g.length maxl.toNat := by
        rwa [chunkGoN_length] at hj
      have := chunkGoN_get_length g _ _ _ 0 0 hle j hjq
      simpa using this
    · intro c1 h1 c2 h2
      obtain ⟨⟨j1, hj1⟩, rfl⟩ := List.mem_iff_get.mp h1
      obtain ⟨⟨j2, hj2⟩, rfl⟩ := List.mem_iff_get.mp h2
      have e1 := chunkGoN_get_length g _ _ _ 0 0 hle j1
        (by rwa [chunkGoN_length] at hj1)
      have e2 := chunkGoN_get_length g _ _ _ 0 0 hle j2
        (by rwa [chunkGoN_length] at hj2)
      rw [e1, e2]
      simp only [Nat.zero_add]
      by_cases k1 : j1 < g.length % numChunksN g.length maxl.toNat <;>
        by_cases k2 : j2 < g.length % numChunksN g.length maxl.toNat <;>
          simp only [k1, k2, if_true, if_false] <;> omega

theorem chunk_even_size_distribution_witness :
    chunk_even ([0, 1, 2] : List Nat) 3 = some [[0, 1, 2]] ∧
      ∃ cs, chunk_even ([0, 1, 2, 3, 4, 5, 6] : List Nat) 3 = some cs ∧
        cs.length = numChunksN ([0, 1, 2, 3, 4, 5, 6] : List Nat).length (3 : Int).toNat ∧
        (∀ j (hj : j < cs.length),
          (cs.get ⟨j, hj⟩).length
            = ([0, 1, 2, 3, 4, 5, 6] : List Nat).length
                / numChunksN ([0, 1, 2, 3, 4, 5, 6] : List Nat).length (3 : Int).toNat
              + (if j < ([0, 1, 2, 3, 4, 5, 6] : List Nat).length
                    % numChunksN ([0, 1, 2, 3, 4, 5, 6] : List Nat).length (3 : Int).toNat
                 then 1 else 0)) ∧
        (∀ c1 ∈ cs, ∀ c2 ∈ cs, c1.length ≤ c2.length + 1) :=
  ⟨(chunk_even_size_distribution ([0, 1, 2] : List Nat) 3 (by decide)).1 (by decide),
    (chunk_even_size_distribution ([0, 1, 2, 3, 4, 5, 6] : List Nat) 3 (by decide)).2
      (by decide)⟩

/-- The sum of a list of naturals each at most `m` is at most
`length * m`. -/
theorem sum_le_length_mul (m : Nat) :
    ∀ l : List Nat, (∀ x ∈ l, x ≤ m) → l.sum ≤ l.length * m := by
  intro l
  induction l with
  | nil => intro _; simp
  | cons x xs ih =>
    intro hx
    have h1 : x ≤ m := hx x (List.mem_cons_self x xs)
    have h2 := ih (fun y hy => hx y (List.mem_cons_of_mem x hy))
    simp only [List.sum_cons, List.length_cons]
    have : (xs.length + 1) * m = xs.length * m + m := by ring
    omega

/-- C3 — Chunk size bound and minimality: with `maxLines ≥ 1` and `g`
non-empty, every chunk returned by `chunk_even` has at most `maxLines`
lines, and no decomposition of `g` into chunks of at most `maxLines`
lines uses fewer chunks. -/
theorem chunk_even_bound_minimal {α : Type} (g : List α) (maxl : Int)
    (hg : g ≠ []) (hm : 1 ≤ maxl) :
    ∃ cs, chunk_even g maxl = some cs ∧
      (∀ c ∈ cs, (c.length : Int) ≤ maxl) ∧
      (∀ cs' : List (List α), cs'.flatten = g →
        (∀ c ∈ cs', (c.length : Int) ≤ maxl) → cs.length ≤ cs'.length) := by
  have hn0 : 0 < g.length := List.length_pos.mpr hg
  by_cases h : (g.length : Int) ≤ maxl
  · refine ⟨[g], ?_, ?_, ?_⟩
    · unfold chunk_even
      rw [if_pos h]
    · intro c hc
      rw [List.mem_singleton] at hc
      subst hc
      exact h
    · intro cs' hflat _
      match cs', hflat with
      | [], hflat => exact absurd hflat.symm hg
      | c :: cs'', _ => simp
  · push_neg at h
    have hm0 : 0 < maxl.toNat := by omega
    have hmeq : (maxl.toNat : Int) = maxl := Int.toNat_of_nonneg (by omega)
    have hq0 : 0 < numChunksN g.length maxl.toNat :=
      numChunksN_pos g.length maxl.toNat hn0 hm0
    have hnm : g.length ≤ numChunksN g.length maxl.toNat * maxl.toNat :=
      numChunksN_mul_ge g.length maxl.toNat hm0
    have hle : 0 + sliceSum (g.length / numChunksN g.length maxl.toNat)
        (g.length % numChunksN g.length maxl.toNat) 0
        (numChunksN g.length maxl.toNat) ≤ g.length := by
      rw [sliceSum_div_mod _ _ hq0]
      omega
    refine ⟨_, chunk_even_pos_split g maxl hm h, ?_, ?_⟩
    · intro c hc
      obtain ⟨⟨j, hj⟩, rfl⟩ := List.mem_iff_get.mp hc
      have e := chunkGoN_get_length g _ _ _ 0 0 hle j
        (by rwa [chunkGoN_length] at hj)
      rw [e]
      have hb : g.length / numChunksN g.length maxl.toNat ≤ maxl.toNat := by
        have h1 : numChunksN g.length maxl.toNat
              * (g.length / numChunksN g.length maxl.toNat)
            ≤ numChunksN g.length maxl.toNat * maxl.toNat := by
          calc numChunksN g.length maxl.toNat
                * (g.length / numChunksN g.length maxl.toNat)
              ≤ g.length := Nat.mul_div_le g.length _
            _ ≤ numChunksN g.length maxl.toNat * maxl.toNat := hnm
        exact Nat.le_of_mul_le_mul_left h1 hq0
      have hbound : g.length / numChunksN g.length maxl.toNat
          + (if 0 + j < g.length % numChunksN g.length maxl.toNat then 1 else 0)
          ≤ maxl.toNat := by
        by_cases hcase : 0 + j < g.length % numChunksN g.length maxl.toNat
        · rw [if_pos hcase]
          have hdm := Nat.div_add_mod g.length (numChunksN g.length maxl.toNat)
          by_contra hcontra
          have hbm : maxl.toNat ≤ g.length / numChunksN g.length maxl.toNat := by
            omega
          have := Nat.mul_le_mul_left (numChunksN g.length maxl.toNat) hbm
          omega
        · rw [if_neg hcase]
          omega
      have hcast : ((g.length / numChunksN g.length maxl.toNat
          + (if 0 + j < g.length % numChunksN g.length maxl.toNat then 1 else 0) : Nat) : Int)
          ≤ ((maxl.toNat : Nat) : Int) := by exact_mod_cast hbound
      rw [hmeq] at hcast
      exact hcast
    · intro cs' hflat hsmall
      rw [chunkGoN_length]
      have hsum : (cs'.map List.length).sum = g.length := by
        rw [← List.length_flatten, hflat]
      have hall : ∀ x ∈ cs'.map List.length, x ≤ maxl.toNat := by
        intro x hx
        obtain ⟨c, hc, rfl⟩ := List.mem_map.mp hx
        have := hsmall c hc
        omega
      have hlenm : g.length ≤ cs'.length * maxl.toNat := by
        have := sum_le_length_mul maxl.toNat (cs'.map List.length) hall
        rw [hsum, List.length_map] at this
        exact this
      have hqm : numChunksN g.length maxl.toNat * maxl.toNat
          < g.length + maxl.toNat := numChunksN_mul_lt g.length maxl.toNat hm0
      have hlt : numChunksN g.length maxl.toNat * maxl.toNat
          < (cs'.length + 1) * maxl.toNat := by
        have hx : (cs'.length + 1) * maxl.toNat
            = cs'.length * maxl.toNat + maxl.toNat := by ring
        omega
      have := Nat.lt_of_mul_lt_mul_right hlt
      omega

theorem chunk_even_bound_minimal_witness :
    ([0, 1, 2, 3] : List Nat) ≠ [] ∧ (1 : Int) ≤ 3 ∧
      ∃ cs, chunk_even ([0, 1, 2, 3] : List Nat) 3 = some cs ∧
        (∀ c ∈ cs, (c.length : Int) ≤ 3) ∧
        (∀ cs' : List (List Nat), cs'.flatten = [0, 1, 2, 3] →
          (∀ c ∈ cs', (c.length : Int) ≤ 3) → cs.length ≤ cs'.length) :=
  ⟨by decide, by decide,
    chunk_even_bound_minimal [0, 1, 2, 3] 3 (by decide) (by decide)⟩

/-- For `n, k ≥ 1`, `ceil(n / -k) = -(n div k)` (division truncates toward
zero here because the quotient is negative). -/
theorem pyCeilDiv_neg (n k : Nat) (hn : 0 < n) (hk : 0 < k) :
    pyCeilDiv n (-(k : Int)) = -((n / k : Nat) : Int) := by
  obtain ⟨n', rfl⟩ : ∃ n', n = n' + 1 := ⟨n - 1, by omega⟩
  obtain ⟨k', rfl⟩ : ∃ k', k = k' + 1 := ⟨k - 1, by omega⟩
  have h1 : -((n' + 1 : Nat) : Int) = Int.negSucc n' := by
    rw [Int.negSucc_eq]
    push_cast
    ring
  have h2 : -((k' + 1 : Nat) : Int) = Int.negSucc k' := by
    rw [Int.negSucc_eq]
    push_cast
    ring
  unfold pyCeilDiv
  rw [h1, h2]
  rfl

/-- C9 counterexample — the claim "a negative `maxLines` returns the empty
list for every non-empty group" is false: on the one-line group `[0]` with
`maxLines = -2`, `chunk_even` hits `1 // 0` (a `ZeroDivisionError`,
modelled as `none`) instead of returning the empty list. -/
theorem chunk_even_neg_counterexample :
    chunk_even ([0] : List Nat) (-2) = none ∧
      chunk_even ([0] : List Nat) (-2) ≠ some [] := by decide

/-- C9 amended — chunker outside its precondition: for a non-empty group
and `maxLines ≤ 0` there is no guard; a negative `maxLines` silently
returns the empty list when `|maxLines| ≤ n` (the loop runs zero times,
discarding every line) and raises `ZeroDivisionError` (modelled `none`)
when `n < |maxLines|`; `maxLines = 0` always raises `ZeroDivisionError`. -/
theorem chunk_even_nonpos {α : Type} (g : List α) (maxl : Int)
    (hg : g ≠ []) (hm : maxl ≤ 0) :
    chunk_even g maxl
      = if maxl < 0 ∧ maxl.natAbs ≤ g.length then some [] else none := by
  have hn0 : 0 < g.length := List.length_pos.mpr hg
  unfold chunk_even
  rw [if_neg (by omega)]
  by_cases h0 : maxl = 0
  · subst h0
    rw [if_pos rfl, if_neg (by simp)]
  · rw [if_neg h0]
    obtain ⟨k, hk0, rfl⟩ : ∃ k : Nat, 0 < k ∧ maxl = -(k : Int) :=
      ⟨maxl.natAbs, Int.natAbs_pos.mpr h0, by omega⟩
    simp only [Int.natAbs_neg, Int.natAbs_ofNat]
    have hnum : pyCeilDiv g.length (-(k : Int)) = -((g.length / k : Nat) : Int) :=
      pyCeilDiv_neg g.length k hn0 hk0
    rw [hnum]
    by_cases hcase : k ≤ g.length
    · have hdivpos : 0 < g.length / k := Nat.div_pos hcase hk0
      rw [if_neg (by omega), if_pos ⟨by omega, hcase⟩]
      have ht : (-(((g.length / k : Nat)) : Int)).toNat = 0 := by omega
      rw [ht]
      rfl
    · have hz : g.length / k = 0 := Nat.div_eq_of_lt (by omega)
      rw [hz]
      norm_num
      rw [if_neg (fun hc => hcase hc.2)]

theorem chunk_even_nonpos_witness :
    ([0, 1, 2] : List Nat) ≠ [] ∧ (-2 : Int) ≤ 0 ∧
      chunk_even ([0, 1, 2] : List Nat) (-2)
        = if (-2 : Int) < 0 ∧ (-2 : Int).natAbs ≤ ([0, 1, 2] : List Nat).length
          then some [] else none :=
  ⟨by decide, by decide, chunk_even_nonpos [0, 1, 2] (-2) (by decide) (by decide)⟩

/-- The accumulator loop of `split_groups` from `src/app.py`: `buf`
collects the current run of non-empty lines; an empty line flushes a
non-empty `buf`; at end of input a non-empty `buf` is flushed. -/
def splitGo {β : Type} : List (List β) → List (List β) → List (List (List β))
  | [], buf =>
    match buf with
    | [] => []
    | _ :: _ => [buf]
  | ln :: rest, buf =>
    match ln with
    | [] =>
      match buf with
      | [] => splitGo rest []
      | _ :: _ => buf :: splitGo rest []
    | _ :: _ => splitGo rest (buf ++ [ln])

/-- Embedding of `split_groups(lines)` from `src/app.py`. -/
def split_groups {β : Type} (lines : List (List β)) : List (List (List β)) :=
  splitGo lines []

example : split_groups [[], ['a'], ['b'], [], [], ['c'], []]
    = [[['a'], ['b']], [['c']]] := by decide

/-- Specification-side description of the grouper (from the spec's words):
the list of maximal runs of non-empty lines, in order. -/
def maximalRuns {β : Type} : List (List β) → List (List (List β))
  | [] => []
  | ln :: rest =>
    match ln with
    | [] => maximalRuns rest
    | _ :: _ =>
      (ln :: rest.takeWhile (fun l => !l.isEmpty)) ::
        maximalRuns (rest.dropWhile (fun l => !l.isEmpty))
termination_by l => l.length
decreasing_by
  · simp only [List.length_cons]
    omega
  · rename_i rest
    simp only [List.length_cons]
    have hs : List.Sublist (List.dropWhile (fun l => !l.isEmpty) rest) rest :=
      List.dropWhile_sublist _
    have := hs.length_le
    omega

theorem splitGo_spec {β : Type} :
    ∀ (lines buf : List (List β)),
      splitGo lines buf
        = if buf.isEmpty then maximalRuns lines
          else (buf ++ lines.takeWhile (fun l => !l.isEmpty)) ::
              maximalRuns (lines.dropWhile (fun l => !l.isEmpty)) := by
  intro lines
  induction lines with
  | nil =>
    intro buf
    cases buf <;> simp [splitGo, maximalRuns]
  | cons ln rest ih =>
    intro buf
    cases ln with
    | nil =>
      cases buf with
      | nil => simp [splitGo, maximalRuns, ih []]
      | cons b bs => simp [splitGo, maximalRuns, ih []]
    | cons x xs =>
      cases buf with
      | nil => simp [splitGo, maximalRuns, ih [x :: xs]]
      | cons b bs =>
        have := ih ((b :: bs) ++ [x :: xs])
        simp only [splitGo, this]
        simp [maximalRuns]

theorem maximalRuns_ne_nil {β : Type} :
    ∀ (fuel : Nat) (ls : List (List β)), ls.length ≤ fuel →
      ∀ gp ∈ maximalRuns ls, gp ≠ [] := by
  intro fuel
  induction fuel with
  | zero =>
    intro ls hls gp hgp
    have h0 : ls = [] := List.length_eq_zero.mp (Nat.le_zero.mp hls)
    subst h0
    simp [maximalRuns] at hgp
  | succ fuel ih =>
    intro ls hls gp hgp
    rcases ls with _ | ⟨ln, rest⟩
    · simp [maximalRuns] at hgp
    · rcases ln with _ | ⟨x, xs⟩
      · rw [show maximalRuns ([] :: rest) = maximalRuns rest from by
          simp [maximalRuns]] at hgp
        exact ih rest (by simp at hls; omega) gp hgp
      · rw [show maximalRuns ((x :: xs) :: rest)
            = ((x :: xs) :: rest.takeWhile (fun l => !l.isEmpty)) ::
              maximalRuns (rest.dropWhile (fun l => !l.isEmpty)) from by
          simp [maximalRuns]] at hgp
        rcases List.mem_cons.mp hgp with hgp | hgp
        · subst hgp
          simp
        · have hs : List.Sublist (List.dropWhile (fun l => !l.isEmpty) rest) rest :=
            List.dropWhile_sublist _
          have hd := hs.length_le
          exact ih _ (by simp at hls; omega) gp hgp

theorem maximalRuns_all_blank {β : Type} :
    ∀ ls : List (List β), (∀ l ∈ ls, l = []) → maximalRuns ls = [] := by
  intro ls
  induction ls with
  | nil => intro _; simp [maximalRuns]
  | cons ln rest ih =>
    intro hall
    have h1 : ln = [] := hall _ (List.mem_cons_self _ _)
    subst h1
    rw [show maximalRuns ([] :: rest) = maximalRuns rest from by simp [maximalRuns]]
    exact ih (fun l hl => hall l (List.mem_cons_of_mem _ hl))

/-- C5 — Grouper correctness: `split_groups` returns exactly the maximal
runs of non-empty lines, in original order; no emitted group is empty; an
input of only empty lines (or no lines) yields no groups. -/
theorem split_groups_runs {β : Type} (lines : List (List β)) :
    split_groups lines = maximalRuns lines ∧
      (∀ gp ∈ split_groups lines, gp ≠ []) ∧
      ((∀ l ∈ lines, l = []) → split_groups lines = []) := by
  have heq : split_groups lines = maximalRuns lines := by
    rw [split_groups, splitGo_spec]
    simp
  refine ⟨heq, ?_, ?_⟩
  · rw [heq]
    exact maximalRuns_ne_nil lines.length lines le_rfl
  · intro hall
    rw [heq]
    exact maximalRuns_all_blank lines hall

theorem split_groups_runs_witness :
    split_groups [[], ['a'], ['b'], [], [], ['c'], []]
        = maximalRuns [[], ['a'], ['b'], [], [], ['c'], []] ∧
      (∀ gp ∈ split_groups [[], ['a'], ['b'], [], [], ['c'], []], gp ≠ []) ∧
      ((∀ l ∈ [[], ['a'], ['b'], [], [], ['c'], []], l = []) →
        split_groups [[], ['a'], ['b'], [], [], ['c'], []] = []) :=
  split_groups_runs [[], ['a'], ['b'], [], [], ['c'], []]

theorem splitGo_flatten {β : Type} :
    ∀ (lines buf : List (List β)),
      (splitGo lines buf).flatten = buf ++ lines.filter (fun l => !l.isEmpty) := by
  intro lines
  induction lines with
  | nil =>
    intro buf
    cases buf <;> simp [splitGo]
  | cons ln rest ih =>
    intro buf
    cases ln with
    | nil =>
      cases buf with
      | nil => simp [splitGo, ih []]
      | cons b bs => simp [splitGo, ih []]
    | cons x xs =>
      have := ih (buf ++ [x :: xs])
      simp only [splitGo, this]
      simp

/-- C10 — Grouper flatten identity: concatenating the groups returned by
`split_groups` yields the input with all empty lines removed; grouping
never loses, duplicates, or reorders a non-empty line. -/
theorem split_groups_flatten {β : Type} (lines : List (List β)) :
    (split_groups lines).flatten = lines.filter (fun l => !l.isEmpty) := by
  rw [split_groups, splitGo_flatten]
  rfl

/-- Embedding of `clean_group(g)` from `src/app.py`: the list comprehension
`[ln for ln in g if ":" not in ln]`. -/
def clean_group : List (List Char) → List (List Char)
  | [] => []
  | ln :: rest => if ':' ∈ ln then clean_group rest else ln :: clean_group rest

/-- C6 — Cleaner correctness: `clean_group g` is exactly the subsequence of
`g`'s lines not containing `':'`, in original order; every line containing
`':'` is absent. -/
theorem clean_group_spec (g : List (List Char)) :
    clean_group g = g.filter (fun ln => decide (':' ∉ ln)) ∧
      List.Sublist (clean_group g) g ∧
      (∀ ln ∈ g, ':' ∉ ln → ln ∈ clean_group g) ∧
      (∀ ln ∈ clean_group g, ':' ∉ ln) := by
  have heq : clean_group g = g.filter (fun ln => decide (':' ∉ ln)) := by
    induction g with
    | nil => rfl
    | cons ln rest ih =>
      by_cases h : ':' ∈ ln <;> simp [clean_group, h, ih]
  refine ⟨heq, ?_, ?_, ?_⟩
  · rw [heq]
    exact List.filter_sublist g
  · intro ln hln hmem
    rw [heq]
    rw [List.mem_filter]
    exact ⟨hln, by simpa using hmem⟩
  · intro ln hln
    rw [heq, List.mem_filter] at hln
    simpa using hln.2

theorem clean_group_spec_witness :
    clean_group [['a'], ['V', ':'], ['b']]
        = [['a'], ['V', ':'], ['b']].filter (fun ln => decide (':' ∉ ln)) ∧
      List.Sublist (clean_group [['a'], ['V', ':'], ['b']]) [['a'], ['V', ':'], ['b']] ∧
      (∀ ln ∈ [['a'], ['V', ':'], ['b']], ':' ∉ ln →
        ln ∈ clean_group [['a'], ['V', ':'], ['b']]) ∧
      (∀ ln ∈ clean_group [['a'], ['V', ':'], ['b']], ':' ∉ ln) :=
  clean_group_spec [['a'], ['V', ':'], ['b']]

/-- Split on newline characters; always returns one more segment than the
number of newlines (a trailing newline yields a trailing empty segment). -/
def linesSplit : List Char → List (List Char)
  | [] => [[]]
  | c :: cs =>
    if c = '\n' then [] :: linesSplit cs
    else
      match linesSplit cs with
      | [] => [[c]]
      | l :: ls => (c :: l) :: ls

/-- Python `str.splitlines()` (newline-only model): no segments for the
empty string, and no trailing empty segment after a final newline. -/
def splitlines (cs : List Char) : List (List Char) :=
  if cs = [] then []
  else if cs.getLast? = some '\n' then (linesSplit cs).dropLast
  else linesSplit cs

example : splitlines "a\nbc\n\n".toList = [['a'], ['b', 'c'], []] := by decide

example : splitlines "".toList = [] := by decide

/-- Python `str.strip()`: remove leading and trailing whitespace. -/
def pyStrip (s : List Char) : List Char :=
  ((s.dropWhile Char.isWhitespace).reverse.dropWhile Char.isWhitespace).reverse

example : pyStrip "  ab c  ".toList = "ab c".toList := by decide

/-- Splitting at a stop character: `spanTo stop cs = some (content, rest)` splits `cs` at the first
occurrence of `stop`; `none` when `stop` does not occur. -/
def spanTo (stop : Char) : List Char → Option (List Char × List Char)
  | [] => none
  | c :: cs =>
    if c = stop then some ([], cs)
    else
      match spanTo stop cs with
      | none => none
      | some (p, r) => some (c :: p, r)

theorem spanTo_length {stop : Char} :
    ∀ {cs : List Char} {p r}, spanTo stop cs = some (p, r) → r.length < cs.length := by
  intro cs
  induction cs with
  | nil => intro p r h; simp [spanTo] at h
  | cons c cs ih =>
    intro p r h
    by_cases hc : c = stop
    · simp [spanTo, hc] at h
      obtain ⟨_, h2⟩ := h
      subst h2
      simp
    · simp only [spanTo, if_neg hc] at h
      match hs : spanTo stop cs with
      | none => rw [hs] at h; simp at h
      | some (p', r') =>
        rw [hs] at h
        simp at h
        obtain ⟨_, h2⟩ := h
        subst h2
        have := ih hs
        simp
        omega

theorem spanTo_eq_append {stop : Char} :
    ∀ {cs : List Char} {p r}, spanTo stop cs = some (p, r) →
      cs = p ++ stop :: r ∧ stop ∉ p := by
  intro cs
  induction cs with
  | nil => intro p r h; simp [spanTo] at h
  | cons c cs ih =>
    intro p r h
    by_cases hc : c = stop
    · simp [spanTo, hc] at h
      obtain ⟨h1, h2⟩ := h
      subst h1; subst h2; subst hc
      simp
    · simp only [spanTo, if_neg hc] at h
      match hs : spanTo stop cs with
      | none => rw [hs] at h; simp at h
      | some (p', r') =>
        rw [hs] at h
        simp at h
        obtain ⟨h1, h2⟩ := h
        subst h1; subst h2
        obtain ⟨ih1, ih2⟩ := ih hs
        constructor
        · rw [ih1]; simp
        · simp only [List.mem_cons]
          rintro (h | h)
          · exact hc h.symm
          · exact ih2 h

/-- If `stop ∉ content`, the first `stop` in `content ++ stop :: post` is
the displayed one. -/
theorem spanTo_of_no_stop {stop : Char} :
    ∀ {content : List Char} (post : List Char), stop ∉ content →
      spanTo stop (content ++ stop :: post) = some (content, post) := by
  intro content
  induction content with
  | nil => intro post _; simp [spanTo]
  | cons c cs ih =>
    intro post h
    have hc : c ≠ stop := fun hcc => h (by simp [hcc])
    have hcs : stop ∉ cs := fun hm => h (List.mem_cons_of_mem _ hm)
    simp only [List.cons_append, spanTo, if_neg hc, List.append_eq, ih post hcs]

/-- One `re.sub` pass for tokens `op content cl` where `content` is a
non-empty run without `cl` — the shared semantics of the patterns
`\[/?[^\]]+\]` and `<[^>]+>` in `chordpro_to_plain`: scan left to right;
at each `op`, if the text up to the first following `cl` is non-empty,
drop everything through that `cl` and continue after it; otherwise keep
scanning from the next character. -/
def subTok (op cl : Char) (cs : List Char) : List Char :=
  match cs with
  | [] => []
  | c :: rest =>
    if c = op then
      match h : spanTo cl rest with
      | some (p, r) =>
        if p = [] then c :: subTok op cl rest
        else subTok op cl r
      | none => c :: subTok op cl rest
    else c :: subTok op cl rest
termination_by cs.length
decreasing_by
  · simp
  · have := spanTo_length h
    simp
    omega
  · simp
  · simp

/-- Embedding of `re.sub(r"\[/?[^\]]+\]", "", ln)`. -/
def subBracket (cs : List Char) : List Char := subTok '[' ']' cs

/-- Embedding of `re.sub(r"<[^>]+>", "", ln)`. -/
def subAngle (cs : List Char) : List Char := subTok '<' '>' cs

example : subBracket "a[C]b[/D]c".toList = "abc".toList := by
  simp [subBracket, subTok, spanTo]

example : subBracket "a[]b".toList = "a[]b".toList := by
  simp [subBracket, subTok, spanTo]

example : subAngle "x<b>y</b>z".toList = "xyz".toList := by
  simp [subAngle, subTok, spanTo]

/-- Directive test `ln.startswith("{") and ln.endswith("}")` on the stripped line. -/
def isDirective (t : List Char) : Prop :=
  t.head? = some '{' ∧ t.getLast? = some '}'

instance (t : List Char) : Decidable (isDirective t) :=
  inferInstanceAs (Decidable (_ ∧ _))

/-- The per-line transform of `chordpro_to_plain`: `none` when the stripped
line is a discarded directive, otherwise the stripped line with bracket
and angle tokens removed. -/
def stripLine (ln : List Char) : Option (List Char) :=
  let t := pyStrip ln
  if isDirective t then none else some (subAngle (subBracket t))

/-- The loop body of `chordpro_to_plain` over the split lines. -/
def stripLoop : List (List Char) → List (List Char)
  | [] => []
  | ln :: rest =>
    let t := pyStrip ln
    if isDirective t then stripLoop rest
    else subAngle (subBracket t) :: stripLoop rest

/-- Embedding of `chordpro_to_plain(cp)` from `src/app.py`. -/
def chordpro_to_plain (cp : List Char) : List (List Char) :=
  stripLoop (splitlines cp)

example : chordpro_to_plain "{title: X}\nA [C]line\n\n  \nVers 1:".toList
    = [['A', ' ', 'l', 'i', 'n', 'e'], [], [], "Vers 1:".toList] := by
  simp [chordpro_to_plain, splitlines, linesSplit, stripLoop, pyStrip, isDirective,
    subAngle, subBracket, subTok, spanTo]

theorem subTok_cons_other {op cl c : Char} (cs : List Char) (h : ¬ c = op) :
    subTok op cl (c :: cs) = c :: subTok op cl cs := by
  rw [subTok.eq_def]
  simp only [if_neg h]

theorem subTok_cons_op_match {op cl : Char} {rest p r : List Char}
    (hs : spanTo cl rest = some (p, r)) (hp : p ≠ []) :
    subTok op cl (op :: rest) = subTok op cl r := by
  rw [subTok.eq_def]
  simp only [eq_self_iff_true, if_true]
  split
  · rename_i p' r' heq
    rw [hs] at heq
    injection heq with h1
    injection h1 with h2 h3
    subst h2
    subst h3
    rw [if_neg hp]
  · rename_i heq
    rw [hs] at heq
    exact Option.noConfusion heq

theorem subTok_cons_op_none {op cl : Char} {rest : List Char}
    (hs : spanTo cl rest = none) :
    subTok op cl (op :: rest) = op :: subTok op cl rest := by
  rw [subTok.eq_def]
  simp only [eq_self_iff_true, if_true]
  split
  · rename_i p' r' heq
    rw [hs] at heq
    exact Option.noConfusion heq
  · rfl

theorem subTok_cons_op_nilp {op cl : Char} {rest r : List Char}
    (hs : spanTo cl rest = some ([], r)) :
    subTok op cl (op :: rest) = op :: subTok op cl rest := by
  rw [subTok.eq_def]
  simp only [eq_self_iff_true, if_true]
  split
  · rename_i p' r' heq
    rw [hs] at heq
    injection heq with h1
    injection h1 with h2 h3
    subst h3
    rw [if_pos h2.symm]
  · rfl

/-- A well-formed token (`op`, non-empty `cl`-free content, `cl`) preceded
by `op`-free text is removed, and the surrounding text is preserved. -/
theorem subTok_removes {op cl : Char} :
    ∀ (pre content post : List Char), op ∉ pre → content ≠ [] → cl ∉ content →
      subTok op cl (pre ++ op :: (content ++ cl :: post)) = pre ++ subTok op cl post := by
  intro pre
  induction pre with
  | nil =>
    intro content post _ hc hcl
    simp only [List.nil_append]
    exact subTok_cons_op_match (spanTo_of_no_stop post hcl) hc
  | cons a pre ih =>
    intro content post hop hc hcl
    have ha : ¬ a = op := fun h => hop (by simp [h])
    have hop' : op ∉ pre := fun h => hop (List.mem_cons_of_mem _ h)
    simp only [List.cons_append]
    rw [subTok_cons_other _ ha, ih content post hop' hc hcl]

theorem subTok_subset {op cl : Char} :
    ∀ (fuel : Nat) (cs : List Char), cs.length ≤ fuel →
      ∀ x ∈ subTok op cl cs, x ∈ cs := by
  intro fuel
  induction fuel with
  | zero =>
    intro cs hcs x hx
    have h0 : cs = [] := List.length_eq_zero.mp (Nat.le_zero.mp hcs)
    subst h0
    rw [show subTok op cl [] = [] from by rw [subTok.eq_def]] at hx
    exact absurd hx (List.not_mem_nil x)
  | succ fuel ih =>
    intro cs hcs x hx
    rcases cs with _ | ⟨c, rest⟩
    · rw [show subTok op cl [] = [] from by rw [subTok.eq_def]] at hx
      exact absurd hx (List.not_mem_nil x)
    · by_cases hc : c = op
      · subst hc
        match hs : spanTo cl rest with
        | none =>
          rw [subTok_cons_op_none hs] at hx
          rcases List.mem_cons.mp hx with h | h
          · simp [h]
          · exact List.mem_cons_of_mem _ (ih rest (by simp at hcs; omega) x h)
        | some ([], r) =>
          rw [subTok_cons_op_nilp hs] at hx
          rcases List.mem_cons.mp hx with h | h
          · simp [h]
          · exact List.mem_cons_of_mem _ (ih rest (by simp at hcs; omega) x h)
        | some (p :: ps, r) =>
          rw [subTok_cons_op_match hs (by simp)] at hx
          have hlen := spanTo_length hs
          have hx' := ih r (by simp at hcs; omega) x hx
          obtain ⟨hdec, _⟩ := spanTo_eq_append hs
          rw [hdec]
          apply List.mem_cons_of_mem
          simp [hx']
      · rw [subTok_cons_other _ hc] at hx
        rcases List.mem_cons.mp hx with h | h
        · simp [h]
        · exact List.mem_cons_of_mem _ (ih rest (by simp at hcs; omega) x h)

/-- C4 — Stripper per-line behaviour: `chordpro_to_plain` maps each source
line, in source order, to nothing when its stripped form is a directive
(`{...}`), and otherwise to exactly one output line: the stripped line
with every well-formed `[...]` token and then every well-formed `<...>`
token removed, the surrounding text preserved; lines that are or become
empty are emitted as empty strings. -/
theorem chordpro_to_plain_spec :
    (∀ cp : List Char, chordpro_to_plain cp = (splitlines cp).filterMap stripLine) ∧
    (∀ ln : List Char, isDirective (pyStrip ln) → stripLine ln = none) ∧
    (∀ ln : List Char, ¬ isDirective (pyStrip ln) →
      stripLine ln = some (subAngle (subBracket (pyStrip ln)))) ∧
    (∀ pre content post : List Char, '[' ∉ pre → content ≠ [] → ']' ∉ content →
      subBracket (pre ++ '[' :: (content ++ ']' :: post)) = pre ++ subBracket post) ∧
    (∀ pre content post : List Char, '<' ∉ pre → content ≠ [] → '>' ∉ content →
      subAngle (pre ++ '<' :: (content ++ '>' :: post)) = pre ++ subAngle post) := by
  refine ⟨?_, ?_, ?_, ?_, ?_⟩
  · intro cp
    rw [chordpro_to_plain]
    generalize splitlines cp = ls
    induction ls with
    | nil => rfl
    | cons ln rest ih =>
      by_cases h : isDirective (pyStrip ln) <;>
        simp [stripLoop, stripLine, h, ih]
  · intro ln h
    simp [stripLine, h]
  · intro ln h
    simp [stripLine, h]
  · intro pre content post h1 h2 h3
    exact subTok_removes pre content post h1 h2 h3
  · intro pre content post h1 h2 h3
    exact subTok_removes pre content post h1 h2 h3

theorem chordpro_to_plain_spec_witness :
    stripLine ['{', 't', '}'] = none ∧
      stripLine ['a', '[', 'C', ']', 'b'] = some ['a', 'b'] ∧
      subBracket (['a'] ++ '[' :: (['C'] ++ ']' :: ['b'])) = ['a'] ++ subBracket ['b'] ∧
      subAngle (['x'] ++ '<' :: (['b'] ++ '>' :: ['y'])) = ['x'] ++ subAngle ['y'] := by
  refine ⟨?_, ?_, ?_, ?_⟩
  · exact chordpro_to_plain_spec.2.1 ['{', 't', '}'] (by decide)
  · rw [chordpro_to_plain_spec.2.2.1 ['a', '[', 'C', ']', 'b'] (by decide)]
    have h := chordpro_to_plain_spec.2.2.2.1 ['a'] ['C'] ['b']
      (by decide) (by decide) (by decide)
    have hps : pyStrip ['a', '[', 'C', ']', 'b'] = ['a'] ++ '[' :: (['C'] ++ ']' :: ['b']) := by
      decide
    rw [hps, h]
    rw [show subBracket ['b'] = ['b'] from by simp [subBracket, subTok, spanTo]]
    simp [subAngle, subTok, spanTo]
  · exact chordpro_to_plain_spec.2.2.2.1 ['a'] ['C'] ['b'] (by decide) (by decide) (by decide)
  · exact chordpro_to_plain_spec.2.2.2.2 ['x'] ['b'] ['y'] (by decide) (by decide) (by decide)

/-- The slide separator line `---`. -/
def sepLine : List Char := ['-', '-', '-']

/-- Python `sep.join(blocks)`. -/
def pyJoin (sep : List Char) : List (List Char) → List Char
  | [] => []
  | [x] => x
  | x :: y :: xs => x ++ sep ++ pyJoin sep (y :: xs)

/-- One rendered slide block:
`"\n".join(ln + "  " for ln in chunk)` from the `generate` route. -/
def renderBlock (c : List (List Char)) : List Char :=
  pyJoin ['\n'] (c.map (fun ln => ln ++ [' ', ' ']))

/-- The chunks contributed by one document's groups in `generate`:
`for g in groups: cg = clean_group(g); if not cg: continue;
for chunk in chunk_even(cg, max_lines): ...`, flattened in order. -/
def groupsChunks (maxl : Int) : List (List (List Char)) → Option (List (List (List Char)))
  | [] => some []
  | g :: gs =>
    let cg := clean_group g
    if cg.isEmpty then groupsChunks maxl gs
    else
      match chunk_even cg maxl, groupsChunks maxl gs with
      | some cs, some rest => some (cs ++ rest)
      | _, _ => none

/-- All chunks of `generate`, over the downloaded documents in order (the
URL fetching is abstracted away: the input is the list of ChordPro
documents downloaded for the non-blank URLs). -/
def docsChunks (maxl : Int) : List (List Char) → Option (List (List (List Char)))
  | [] => some []
  | doc :: docs =>
    match groupsChunks maxl (split_groups (chordpro_to_plain doc)),
        docsChunks maxl docs with
    | some cs, some rest => some (cs ++ rest)
    | _, _ => none

/-- Embedding of the assembly in the `generate` route: `md_blocks` starts
with `"---\n"`; every chunk appends its rendered block and `"\n---\n"`;
the result is `"\n".join(md_blocks).strip()`. -/
def generateModel (docs : List (List Char)) (maxl : Int) : Option (List Char) :=
  match docsChunks maxl docs with
  | none => none
  | some chunks =>
    some (pyStrip (pyJoin ['\n']
      (('-' :: '-' :: '-' :: ['\n']) ::
        (chunks.map (fun c => [renderBlock c, '\n' :: '-' :: '-' :: '-' :: ['\n']])).flatten)))

/-- Bound `⌈n/m⌉ ≤ n` for `n, m ≥ 1`. -/
theorem numChunksN_le (n m : Nat) (hn : 0 < n) (hm : 0 < m) :
    numChunksN n m ≤ n := by
  unfold numChunksN
  have h1 : n + m - 1 < (n + 1) * m := by
    have h2 : n ≤ n * m := Nat.le_mul_of_pos_right n hm
    have h3 : (n + 1) * m = n * m + m := by ring
    omega
  have := (Nat.div_lt_iff_lt_mul hm).mpr h1
  omega

/-- For `maxl ≥ 1` and non-empty `g`, `chunk_even` succeeds, the chunks
concatenate to `g`, and no chunk is empty. -/
theorem chunk_even_some_good {α : Type} (g : List α) (maxl : Int)
    (hg : g ≠ []) (hm : 1 ≤ maxl) :
    ∃ cs, chunk_even g maxl = some cs ∧ cs.flatten = g ∧ ∀ c ∈ cs, c ≠ [] := by
  have hn0 : 0 < g.length := List.length_pos.mpr hg
  by_cases h : (g.length : Int) ≤ maxl
  · refine ⟨[g], ?_, by simp, ?_⟩
    · unfold chunk_even
      rw [if_pos h]
    · intro c hc
      rw [List.mem_singleton] at hc
      subst hc
      exact hg
  · push_neg at h
    have hm0 : 0 < maxl.toNat := by omega
    have hq0 : 0 < numChunksN g.length maxl.toNat :=
      numChunksN_pos g.length maxl.toNat hn0 hm0
    have hqle : numChunksN g.length maxl.toNat ≤ g.length :=
      numChunksN_le g.length maxl.toNat hn0 hm0
    have hle : 0 + sliceSum (g.length / numChunksN g.length maxl.toNat)
        (g.length % numChunksN g.length maxl.toNat) 0
        (numChunksN g.length maxl.toNat) ≤ g.length := by
      rw [sliceSum_div_mod _ _ hq0]
      omega
    refine ⟨_, chunk_even_pos_split g maxl hm h, ?_, ?_⟩
    · rw [chunkGoN_join, sliceSum_div_mod _ _ hq0]
      simp
    · intro c hc
      obtain ⟨⟨j, hj⟩, rfl⟩ := List.mem_iff_get.mp hc
      have e := chunkGoN_get_length g _ _ _ 0 0 hle j
        (by rwa [chunkGoN_length] at hj)
      have hb1 : 1 ≤ g.length / numChunksN g.length maxl.toNat :=
        (Nat.one_le_div_iff hq0).mpr hqle
      intro hnil
      have : (List.get _ ⟨j, hj⟩).length = 0 := by rw [hnil]; rfl
      rw [e] at this
      by_cases hcase : 0 + j < g.length % numChunksN g.length maxl.toNat <;>
        simp [hcase] at this <;> omega

/-- Membership in a cleaned group implies membership in the group. -/
theorem clean_group_subset : ∀ (g : List (List Char)) (x : List Char),
    x ∈ clean_group g → x ∈ g := by
  intro g
  induction g with
  | nil => intro x hx; exact absurd hx (List.not_mem_nil x)
  | cons ln rest ih =>
    intro x hx
    by_cases h : ':' ∈ ln
    · rw [show clean_group (ln :: rest) = clean_group rest from by
        simp [clean_group, h]] at hx
      exact List.mem_cons_of_mem _ (ih x hx)
    · rw [show clean_group (ln :: rest) = ln :: clean_group rest from by
        simp [clean_group, h]] at hx
      rcases List.mem_cons.mp hx with h1 | h1
      · simp [h1]
      · exact List.mem_cons_of_mem _ (ih x h1)

/-- Every line produced by `linesSplit` is newline-free. -/
theorem linesSplit_no_newline : ∀ (cs : List Char), ∀ l ∈ linesSplit cs, '\n' ∉ l := by
  intro cs
  induction cs with
  | nil =>
    intro l hl
    rw [show linesSplit [] = [[]] from rfl] at hl
    rw [List.mem_singleton] at hl
    subst hl
    exact List.not_mem_nil _
  | cons c cs ih =>
    intro l hl
    by_cases hc : c = '\n'
    · rw [show linesSplit (c :: cs) = [] :: linesSplit cs from by
        simp [linesSplit, hc]] at hl
      rcases List.mem_cons.mp hl with h1 | h1
      · subst h1; exact List.not_mem_nil _
      · exact ih l h1
    · rw [show linesSplit (c :: cs)
          = match linesSplit cs with
            | [] => [[c]]
            | l :: ls => (c :: l) :: ls from by
        simp [linesSplit, hc]] at hl
      match hls : linesSplit cs with
      | [] =>
        rw [hls] at hl
        rw [List.mem_singleton] at hl
        subst hl
        intro hmem
        rcases List.mem_cons.mp hmem with h1 | h1
        · exact hc h1.symm
        · exact List.not_mem_nil _ h1
      | l0 :: ls =>
        rw [hls] at hl
        rcases List.mem_cons.mp hl with h1 | h1
        · subst h1
          intro hmem
          rcases List.mem_cons.mp hmem with h2 | h2
          · exact hc h2.symm
          · exact ih l0 (hls ▸ List.mem_cons_self _ _) h2
        · exact ih l (hls ▸ List.mem_cons_of_mem _ h1)

/-- Characters of `pyStrip s` come from `s`. -/
theorem pyStrip_subset (s : List Char) : ∀ x ∈ pyStrip s, x ∈ s := by
  intro x hx
  unfold pyStrip at hx
  rw [List.mem_reverse] at hx
  have h1 := (List.dropWhile_sublist Char.isWhitespace).subset hx
  rw [List.mem_reverse] at h1
  exact (List.dropWhile_sublist Char.isWhitespace).subset h1

/-- Every line of `chordpro_to_plain` is newline-free. -/
theorem chordpro_to_plain_no_newline (cp : List Char) :
    ∀ ln ∈ chordpro_to_plain cp, '\n' ∉ ln := by
  intro ln hln
  rw [chordpro_to_plain] at hln
  have hsl : ∀ l ∈ splitlines cp, '\n' ∉ l := by
    intro l hl
    apply linesSplit_no_newline cp
    unfold splitlines at hl
    split at hl
    · exact absurd hl (List.not_mem_nil l)
    · split at hl
      · exact (List.dropLast_sublist _).subset hl
      · exact hl
  revert hln
  generalize hls : splitlines cp = ls at hsl
  clear hls
  induction ls with
  | nil => intro h; exact absurd h (List.not_mem_nil ln)
  | cons l0 rest ih =>
    intro hln
    have h0 : '\n' ∉ l0 := hsl l0 (List.mem_cons_self _ _)
    have hrest : ∀ l ∈ rest, '\n' ∉ l := fun l hl => hsl l (List.mem_cons_of_mem _ hl)
    by_cases hd : isDirective (pyStrip l0)
    · rw [show stripLoop (l0 :: rest) = stripLoop rest from by
        simp [stripLoop, hd]] at hln
      exact ih hrest hln
    · rw [show stripLoop (l0 :: rest)
          = subAngle (subBracket (pyStrip l0)) :: stripLoop rest from by
        simp [stripLoop, hd]] at hln
      rcases List.mem_cons.mp hln with h1 | h1
      · subst h1
        intro hmem
        have h2 := subTok_subset (subBracket (pyStrip l0)).length _ le_rfl _ hmem
        have h3 := subTok_subset (pyStrip l0).length _ le_rfl _ h2
        exact h0 (pyStrip_subset l0 _ h3)
      · exact ih hrest h1

theorem groupsChunks_good (maxl : Int) (hm : 1 ≤ maxl) :
    ∀ gs : List (List (List Char)),
      (∀ g ∈ gs, ∀ ln ∈ g, '\n' ∉ ln) →
      ∃ chunks, groupsChunks maxl gs = some chunks ∧
        ∀ c ∈ chunks, c ≠ [] ∧ ∀ ln ∈ c, '\n' ∉ ln := by
  intro gs
  induction gs with
  | nil => intro _; exact ⟨[], rfl, fun c hc => absurd hc (List.not_mem_nil c)⟩
  | cons g gs ih =>
    intro hnl
    have hnl' : ∀ g' ∈ gs, ∀ ln ∈ g', '\n' ∉ ln :=
      fun g' hg' => hnl g' (List.mem_cons_of_mem _ hg')
    obtain ⟨rest, hrest, hrestgood⟩ := ih hnl'
    by_cases hcg : (clean_group g).isEmpty
    · refine ⟨rest, ?_, hrestgood⟩
      simp [groupsChunks, hcg, hrest]
    · have hne : clean_group g ≠ [] := by
        intro h
        rw [h] at hcg
        exact hcg rfl
      obtain ⟨cs, hcs, hflat, hcne⟩ := chunk_even_some_good (clean_group g) maxl hne hm
      refine ⟨cs ++ rest, ?_, ?_⟩
      · simp [groupsChunks, hcg, hcs, hrest]
      · intro c hc
        rcases List.mem_append.mp hc with h1 | h1
        · refine ⟨hcne c h1, ?_⟩
          intro ln hln
          have : ln ∈ cs.flatten := List.mem_flatten.mpr ⟨c, h1, hln⟩
          rw [hflat] at this
          exact hnl g (List.mem_cons_self _ _) ln (clean_group_subset g ln this)
        · exact hrestgood c h1

theorem docsChunks_good (maxl : Int) (hm : 1 ≤ maxl) :
    ∀ docs : List (List Char),
      ∃ chunks, docsChunks maxl docs = some chunks ∧
        ∀ c ∈ chunks, c ≠ [] ∧ ∀ ln ∈ c, '\n' ∉ ln := by
  intro docs
  induction docs with
  | nil => exact ⟨[], rfl, fun c hc => absurd hc (List.not_mem_nil c)⟩
  | cons doc docs ih =>
    obtain ⟨rest, hrest, hrestgood⟩ := ih
    have hgs : ∀ g ∈ split_groups (chordpro_to_plain doc), ∀ ln ∈ g, '\n' ∉ ln := by
      intro g hg ln hln
      have h1 : ln ∈ (split_groups (chordpro_to_plain doc)).flatten :=
        List.mem_flatten.mpr ⟨g, hg, hln⟩
      rw [split_groups, splitGo_flatten, List.nil_append] at h1
      exact chordpro_to_plain_no_newline doc ln (List.mem_of_mem_filter h1)
    obtain ⟨cs, hcs, hcsgood⟩ := groupsChunks_good maxl hm _ hgs
    refine ⟨cs ++ rest, ?_, ?_⟩
    · simp [docsChunks, hcs, hrest]
    · intro c hc
      rcases List.mem_append.mp hc with h1 | h1
      · exact hcsgood c h1
      · exact hrestgood c h1

theorem pyJoin_cons (sep b x : List Char) (xs : List (List Char)) :
    pyJoin sep (b :: x :: xs) = b ++ sep ++ pyJoin sep (x :: xs) := rfl

/-- Flattening the interleaved `md_blocks` list: the join of
`b :: [block c1, "\n---\n", block c2, "\n---\n", ...]` concatenates
`b` with per-chunk segments `"\n" ++ block ++ "\n" ++ "\n---\n"`. -/
theorem pyJoin_blocks :
    ∀ (chunks : List (List (List Char))) (b : List Char),
      pyJoin ['\n'] (b ::
          (chunks.map (fun c =>
            [renderBlock c, '\n' :: '-' :: '-' :: '-' :: ['\n']])).flatten)
        = b ++ (chunks.map (fun c =>
            '\n' :: (renderBlock c ++ '\n' :: '\n' :: '-' :: '-' :: '-' :: ['\n']))).flatten := by
  intro chunks
  induction chunks with
  | nil => intro b; simp [pyJoin]
  | cons c rest ih =>
    intro b
    have hstep : (((c :: rest).map (fun c =>
          [renderBlock c, '\n' :: '-' :: '-' :: '-' :: ['\n']])).flatten)
        = renderBlock c :: ('\n' :: '-' :: '-' :: '-' :: ['\n']) ::
            ((rest.map (fun c =>
              [renderBlock c, '\n' :: '-' :: '-' :: '-' :: ['\n']])).flatten) := by
      simp
    rw [hstep, pyJoin_cons, pyJoin_cons, ih ('\n' :: '-' :: '-' :: '-' :: ['\n'])]
    simp

/-- Rotating the leading newline to the end: each deck segment can be
re-grouped as `"\n\n" ++ block ++ "\n\n---"` with one newline moved to the
very end of the document. -/
theorem deck_rotate :
    ∀ chunks : List (List (List Char)),
      '\n' :: (chunks.map (fun c =>
          '\n' :: (renderBlock c ++ '\n' :: '\n' :: '-' :: '-' :: '-' :: ['\n']))).flatten
        = (chunks.map (fun c =>
            '\n' :: '\n' :: (renderBlock c ++ '\n' :: '\n' :: sepLine))).flatten ++ ['\n'] := by
  intro chunks
  induction chunks with
  | nil => rfl
  | cons c rest ih =>
    simp only [List.map_cons, List.flatten_cons]
    generalize hR : (rest.map (fun c =>
        '\n' :: (renderBlock c ++ '\n' :: '\n' :: '-' :: '-' :: '-' :: ['\n']))).flatten = R at ih ⊢
    generalize hS : (rest.map (fun c =>
        '\n' :: '\n' :: (renderBlock c ++ '\n' :: '\n' :: sepLine))).flatten = S at ih ⊢
    generalize hB : renderBlock c = B
    have hsplit : '\n' :: (('\n' :: (B ++ '\n' :: '\n' :: '-' :: '-' :: '-' :: ['\n'])) ++ R)
        = ('\n' :: '\n' :: (B ++ '\n' :: '\n' :: sepLine)) ++ ('\n' :: R) := by
      simp [sepLine]
    rw [hsplit, ih]
    simp

/-- The flattened deck body is empty or ends in `'-'`. -/
theorem deck_body_last :
    ∀ chunks : List (List (List Char)),
      (chunks.map (fun c =>
          '\n' :: '\n' :: (renderBlock c ++ '\n' :: '\n' :: sepLine))).flatten = [] ∨
        ∃ t, (chunks.map (fun c =>
          '\n' :: '\n' :: (renderBlock c ++ '\n' :: '\n' :: sepLine))).flatten = t ++ ['-'] := by
  intro chunks
  induction chunks with
  | nil => exact Or.inl rfl
  | cons c rest ih =>
    right
    rcases ih with h | ⟨t, ht⟩
    · refine ⟨'\n' :: '\n' :: (renderBlock c ++ '\n' :: '\n' :: ['-', '-']), ?_⟩
      simp only [List.map_cons, List.flatten_cons, h, List.append_nil]
      simp [sepLine]
    · refine ⟨'\n' :: '\n' :: (renderBlock c ++ '\n' :: '\n' :: sepLine) ++ t, ?_⟩
      simp only [List.map_cons, List.flatten_cons, ht]
      simp

/-- Stripping the assembled document: the head `---` is not whitespace and
the body ends in `-`, so `strip` removes exactly the final newline. -/
theorem pyStrip_deck (X : List Char) (hX : X = [] ∨ ∃ t, X = t ++ ['-']) :
    pyStrip (('-' :: '-' :: '-' :: X) ++ ['\n']) = '-' :: '-' :: '-' :: X := by
  have hws : Char.isWhitespace '-' = false := by decide
  unfold pyStrip
  have h1 : (('-' :: '-' :: '-' :: X) ++ ['\n']).dropWhile Char.isWhitespace
      = ('-' :: '-' :: '-' :: X) ++ ['\n'] := by
    rw [List.cons_append, List.dropWhile_cons]
    simp [hws]
  rw [h1]
  have h2 : (('-' :: '-' :: '-' :: X) ++ ['\n']).reverse
      = '\n' :: (X.reverse ++ ['-', '-', '-']) := by
    simp
  rw [h2]
  have h3 : ('\n' :: (X.reverse ++ ['-', '-', '-'])).dropWhile Char.isWhitespace
      = X.reverse ++ ['-', '-', '-'] := by
    rw [List.dropWhile_cons]
    simp only [show Char.isWhitespace '\n' = true from by decide, if_true]
    rcases hX with h | ⟨t, ht⟩
    · subst h
      simp [List.dropWhile_cons, hws]
    · subst ht
      simp [List.dropWhile_cons, hws]
  rw [h3]
  simp

theorem linesSplit_append :
    ∀ a : List Char, '\n' ∉ a →
      ∀ b, linesSplit (a ++ '\n' :: b) = a :: linesSplit b := by
  intro a
  induction a with
  | nil => intro _ b; simp [linesSplit]
  | cons c a' ih =>
    intro ha b
    have hc : ¬ c = '\n' := fun h => ha (by simp [h])
    have ha' : '\n' ∉ a' := fun h => ha (List.mem_cons_of_mem _ h)
    simp only [List.cons_append]
    simp [linesSplit, hc, ih ha' b]

theorem linesSplit_single : ∀ a : List Char, '\n' ∉ a → linesSplit a = [a] := by
  intro a
  induction a with
  | nil => intro _; rfl
  | cons c a' ih =>
    intro ha
    have hc : ¬ c = '\n' := fun h => ha (by simp [h])
    have ha' : '\n' ∉ a' := fun h => ha (List.mem_cons_of_mem _ h)
    simp [linesSplit, hc, ih ha']

theorem renderBlock_lines :
    ∀ c : List (List Char), c ≠ [] → (∀ ln ∈ c, '\n' ∉ ln) →
      ∀ u, linesSplit (renderBlock c ++ '\n' :: u)
        = c.map (fun ln => ln ++ [' ', ' ']) ++ linesSplit u := by
  intro c
  induction c with
  | nil => intro h; exact absurd rfl h
  | cons ln c' ih =>
    intro _ hnl u
    have h1 : '\n' ∉ ln ++ [' ', ' '] := by
      intro hm
      rcases List.mem_append.mp hm with h | h
      · exact hnl ln (List.mem_cons_self _ _) h
      · simp at h
    rcases c' with _ | ⟨ln2, c''⟩
    · rw [show renderBlock [ln] = ln ++ [' ', ' '] from rfl]
      rw [linesSplit_append _ h1 u]
      simp
    · have hrb : renderBlock (ln :: ln2 :: c'')
          = (ln ++ [' ', ' ']) ++ '\n' :: renderBlock (ln2 :: c'') := by
        simp [renderBlock, pyJoin_cons]
      rw [hrb]
      rw [show ((ln ++ [' ', ' ']) ++ '\n' :: renderBlock (ln2 :: c'')) ++ '\n' :: u
          = (ln ++ [' ', ' ']) ++ '\n' :: (renderBlock (ln2 :: c'') ++ '\n' :: u) from by
        simp]
      rw [linesSplit_append _ h1]
      rw [ih (by simp) (fun l hl => hnl l (List.mem_cons_of_mem _ hl)) u]
      simp

theorem linesSplit_deck :
    ∀ chunks : List (List (List Char)),
      (∀ c ∈ chunks, c ≠ [] ∧ ∀ ln ∈ c, '\n' ∉ ln) →
      linesSplit (sepLine ++ (chunks.map (fun c =>
          '\n' :: '\n' :: (renderBlock c ++ '\n' :: '\n' :: sepLine))).flatten)
        = sepLine :: (chunks.map (fun c =>
            [] :: c.map (fun ln => ln ++ [' ', ' ']) ++ [[], sepLine])).flatten := by
  intro chunks
  induction chunks with
  | nil =>
    intro _
    simp only [List.map_nil, List.flatten_nil, List.append_nil]
    rw [linesSplit_single sepLine (by decide)]
  | cons c rest ih =>
    intro hgood
    obtain ⟨hcne, hcnl⟩ := hgood c (List.mem_cons_self _ _)
    have hrest := fun c' hc' => hgood c' (List.mem_cons_of_mem _ hc')
    simp only [List.map_cons, List.flatten_cons]
    have hstr : sepLine ++ (('\n' :: '\n' :: (renderBlock c ++ '\n' :: '\n' :: sepLine)) ++
        (rest.map (fun c =>
          '\n' :: '\n' :: (renderBlock c ++ '\n' :: '\n' :: sepLine))).flatten)
        = sepLine ++ '\n' :: ([] ++ '\n' :: (renderBlock c ++ '\n' :: ([] ++ '\n' :: (sepLine ++
            (rest.map (fun c =>
              '\n' :: '\n' :: (renderBlock c ++ '\n' :: '\n' :: sepLine))).flatten)))) := by
      simp [sepLine]
    rw [hstr]
    rw [linesSplit_append sepLine (by decide)]
    rw [linesSplit_append [] (by decide)]
    rw [renderBlock_lines c hcne hcnl]
    rw [linesSplit_append [] (by decide)]
    rw [ih hrest]
    simp

/-- A rendered line (ending in two spaces) is never the separator line. -/
theorem rendered_ne_sepLine (ln : List Char) : ln ++ [' ', ' '] ≠ sepLine := by
  intro h
  have h2 := congrArg List.getLast? h
  rw [show ln ++ [' ', ' '] = (ln ++ [' ']) ++ [' '] from by simp] at h2
  rw [List.getLast?_concat] at h2
  rw [show sepLine = ['-', '-'] ++ ['-'] from rfl, List.getLast?_concat] at h2
  simp at h2

theorem deck_sep_count :
    ∀ chunks : List (List (List Char)),
      List.count sepLine (sepLine :: (chunks.map (fun c =>
          [] :: c.map (fun ln => ln ++ [' ', ' ']) ++ [[], sepLine])).flatten)
        = chunks.length + 1 := by
  intro chunks
  rw [List.count_cons_self]
  have : ∀ chs : List (List (List Char)),
      List.count sepLine ((chs.map (fun c =>
        [] :: c.map (fun ln => ln ++ [' ', ' ']) ++ [[], sepLine])).flatten) = chs.length := by
    intro chs
    induction chs with
    | nil => rfl
    | cons c rest ihc =>
      simp only [List.map_cons, List.flatten_cons, List.count_append, ihc]
      have hmap : List.count sepLine (c.map (fun ln => ln ++ [' ', ' '])) = 0 := by
        rw [List.count_eq_zero]
        intro hmem
        obtain ⟨ln, _, hln⟩ := List.mem_map.mp hmem
        exact rendered_ne_sepLine ln hln
      rw [List.count_cons]
      simp only [List.count_append, hmap]
      rw [List.count_cons, List.count_cons]
      simp [sepLine]
      omega
  rw [this]

/-- C7 — Deck structure: for every run of the assembly in `generate` with
`maxLines ≥ 1`, the final (stripped) Deck text starts with the separator
`---`; split into lines it is exactly the leading separator followed, per
chunk, by a blank line, the chunk's lines each rendered with exactly two
trailing spaces, a blank line, and a separator; hence it contains exactly
(number of chunks) + 1 separator lines. -/
theorem generate_deck_structure (docs : List (List Char)) (maxl : Int)
    (hm : 1 ≤ maxl) :
    ∃ md chunks,
      generateModel docs maxl = some md ∧
      docsChunks maxl docs = some chunks ∧
      md.take 3 = sepLine ∧
      linesSplit md
        = sepLine :: (chunks.map (fun c =>
            [] :: c.map (fun ln => ln ++ [' ', ' ']) ++ [[], sepLine])).flatten ∧
      List.count sepLine (linesSplit md) = chunks.length + 1 := by
  obtain ⟨chunks, hch, hgood⟩ := docsChunks_good maxl hm docs
  have hbody := deck_body_last chunks
  have hstr : pyJoin ['\n'] (('-' :: '-' :: '-' :: ['\n']) ::
        (chunks.map (fun c => [renderBlock c, '\n' :: '-' :: '-' :: '-' :: ['\n']])).flatten)
      = ('-' :: '-' :: '-' :: (chunks.map (fun c =>
          '\n' :: '\n' :: (renderBlock c ++ '\n' :: '\n' :: sepLine))).flatten) ++ ['\n'] := by
    rw [pyJoin_blocks chunks]
    have h2 : ('-' :: '-' :: '-' :: ['\n']) ++ (chunks.map (fun c =>
        '\n' :: (renderBlock c ++ '\n' :: '\n' :: '-' :: '-' :: '-' :: ['\n']))).flatten
        = '-' :: '-' :: '-' :: ('\n' :: (chunks.map (fun c =>
          '\n' :: (renderBlock c ++ '\n' :: '\n' :: '-' :: '-' :: '-' :: ['\n']))).flatten) := by
      simp
    rw [h2, deck_rotate chunks]
    simp
  have hmd : generateModel docs maxl = some ('-' :: '-' :: '-' :: (chunks.map (fun c =>
      '\n' :: '\n' :: (renderBlock c ++ '\n' :: '\n' :: sepLine))).flatten) := by
    simp only [generateModel, hch]
    rw [hstr, pyStrip_deck _ hbody]
  have hsep : ('-' :: '-' :: '-' :: (chunks.map (fun c =>
      '\n' :: '\n' :: (renderBlock c ++ '\n' :: '\n' :: sepLine))).flatten)
      = sepLine ++ (chunks.map (fun c =>
        '\n' :: '\n' :: (renderBlock c ++ '\n' :: '\n' :: sepLine))).flatten := by
    simp [sepLine]
  have hls : linesSplit ('-' :: '-' :: '-' :: (chunks.map (fun c =>
      '\n' :: '\n' :: (renderBlock c ++ '\n' :: '\n' :: sepLine))).flatten)
      = sepLine :: (chunks.map (fun c =>
          [] :: c.map (fun ln => ln ++ [' ', ' ']) ++ [[], sepLine])).flatten := by
    rw [hsep]
    exact linesSplit_deck chunks hgood
  refine ⟨_, chunks, hmd, hch, rfl, hls, ?_⟩
  rw [hls]
  exact deck_sep_count chunks

theorem generate_deck_structure_witness :
    (1 : Int) ≤ 5 ∧
      ∃ md chunks,
        generateModel [['l', 'a']] 5 = some md ∧
        docsChunks 5 [['l', 'a']] = some chunks ∧
        md.take 3 = sepLine ∧
        linesSplit md
          = sepLine :: (chunks.map (fun c =>
              [] :: c.map (fun ln => ln ++ [' ', ' ']) ++ [[], sepLine])).flatten ∧
        List.count sepLine (linesSplit md) = chunks.length + 1 :=
  ⟨by decide, generate_deck_structure [['l', 'a']] 5 (by decide)⟩

/-- Response of the `build` route. -/
inductive BuildResponse
  | badRequest (msg : List Char)
  | errorPage (html : List Char)
  | redirect (location : List Char)
deriving DecidableEq

/-- Outcome of the external `mkslides build` subprocess: exit code zero, or
non-zero with the captured stdout and stderr
(`subprocess.CalledProcessError`). -/
inductive BuilderOutcome
  | success
  | failure (out err : List Char)
deriving DecidableEq

/-- Process-wide state touched by the `build` route: the global `builds`
mapping (build id to site directory) and the temp directories existing on
disk. -/
structure BuildState where
  builds : List (List Char × List Char)
  tmpDirs : List (List Char)
deriving DecidableEq

/-- Python `os.path.basename`: the part after the last `/`. -/
def pyBasename (p : List Char) : List Char :=
  (p.reverse.takeWhile (fun c => c ≠ '/')).reverse

/-- Path `md_file = os.path.join(tmp_root, "slides.md")`. -/
def mdFilePath (tmp_root : List Char) : List Char := tmp_root ++ "/slides.md".toList

/-- Path `site_dir = os.path.join(tmp_root, "site")`. -/
def siteDirPath (tmp_root : List Char) : List Char := tmp_root ++ "/site".toList

/-- The invoked command line,
`mkslides build {md_file} --site-dir {site_dir}`. -/
def buildCommand (tmp_root : List Char) : List Char :=
  "mkslides build ".toList ++ mdFilePath tmp_root
    ++ " --site-dir ".toList ++ siteDirPath tmp_root

/-- The 500 error page of the `build` route (the f-string in `except
subprocess.CalledProcessError as e`). -/
def buildErrorHtml (tmp_root out err : List Char) : List Char :=
  "<h1>Build error</h1><h2>Command</h2><pre>".toList ++ buildCommand tmp_root
    ++ "</pre><h2>stdout</h2><pre>".toList ++ out
    ++ "</pre><h2>stderr</h2><pre>".toList ++ err ++ "</pre>".toList

/-- Embedding of the `build` route of `src/app.py`.  `md` is the submitted
`markdown` form field, `tmp_root` the fresh directory from
`tempfile.mkdtemp` (added to the state's disk set), `outcome` the external
builder's result; file writes inside `tmp_root` are abstracted.  On
failure the route removes `tmp_root` (`shutil.rmtree`) and returns the
error page; on success it records `builds[basename(tmp_root)] = site_dir`
and redirects to the preview. -/
def build (st : BuildState) (md tmp_root : List Char) (outcome : BuilderOutcome) :
    BuildResponse × BuildState :=
  if pyStrip md = [] then (.badRequest "Ingen markdown mottatt".toList, st)
  else
    match outcome with
    | .failure out err =>
      (.errorPage (buildErrorHtml tmp_root out err),
        ⟨st.builds, (st.tmpDirs ++ [tmp_root]).filter (fun d => d ≠ tmp_root)⟩)
    | .success =>
      (.redirect ("/preview/".toList ++ pyBasename tmp_root ++ ['/']),
        ⟨st.builds ++ [(pyBasename tmp_root, siteDirPath tmp_root)],
          st.tmpDirs ++ [tmp_root]⟩)

/-- C8 — Build failure atomicity: when the external builder exits non-zero
(and the input was non-empty), the route returns the error page, which
contains the invoked command line and the captured stdout and stderr
verbatim; the temporary directory is gone from disk; the build mapping is
unchanged; an entry is added to the mapping only on builder success. -/
theorem build_failure_atomic (st : BuildState) (md tmp_root out err : List Char)
    (hmd : pyStrip md ≠ []) :
    (build st md tmp_root (.failure out err)).1
        = .errorPage (buildErrorHtml tmp_root out err) ∧
      (∃ pre post, buildErrorHtml tmp_root out err
        = pre ++ buildCommand tmp_root ++ post) ∧
      (∃ pre post, buildErrorHtml tmp_root out err = pre ++ out ++ post) ∧
      (∃ pre post, buildErrorHtml tmp_root out err = pre ++ err ++ post) ∧
      (build st md tmp_root (.failure out err)).2.builds = st.builds ∧
      tmp_root ∉ (build st md tmp_root (.failure out err)).2.tmpDirs ∧
      (build st md tmp_root .success).2.builds
        = st.builds ++ [(pyBasename tmp_root, siteDirPath tmp_root)] := by
  refine ⟨?_, ?_, ?_, ?_, ?_, ?_, ?_⟩
  · rw [build, if_neg hmd]
  · refine ⟨"<h1>Build error</h1><h2>Command</h2><pre>".toList,
      "</pre><h2>stdout</h2><pre>".toList ++ out
        ++ "</pre><h2>stderr</h2><pre>".toList ++ err ++ "</pre>".toList, ?_⟩
    simp [buildErrorHtml]
  · refine ⟨"<h1>Build error</h1><h2>Command</h2><pre>".toList ++ buildCommand tmp_root
        ++ "</pre><h2>stdout</h2><pre>".toList,
      "</pre><h2>stderr</h2><pre>".toList ++ err ++ "</pre>".toList, ?_⟩
    simp [buildErrorHtml]
  · refine ⟨"<h1>Build error</h1><h2>Command</h2><pre>".toList ++ buildCommand tmp_root
        ++ "</pre><h2>stdout</h2><pre>".toList ++ out
        ++ "</pre><h2>stderr</h2><pre>".toList, "</pre>".toList, ?_⟩
    simp [buildErrorHtml]
  · rw [build, if_neg hmd]
  · rw [build, if_neg hmd]
    intro hmem
    have := (List.mem_filter.mp hmem).2
    simp at this
  · rw [build, if_neg hmd]

theorem build_failure_atomic_witness :
    pyStrip ['x'] ≠ [] ∧
      ((build ⟨[], []⟩ ['x'] ['t'] (.failure ['o'] ['e'])).1
          = .errorPage (buildErrorHtml ['t'] ['o'] ['e']) ∧
        (∃ pre post, buildErrorHtml ['t'] ['o'] ['e']
          = pre ++ buildCommand ['t'] ++ post) ∧
        (∃ pre post, buildErrorHtml ['t'] ['o'] ['e'] = pre ++ ['o'] ++ post) ∧
        (∃ pre post, buildErrorHtml ['t'] ['o'] ['e'] = pre ++ ['e'] ++ post) ∧
        (build ⟨[], []⟩ ['x'] ['t'] (.failure ['o'] ['e'])).2.builds = [] ∧
        ['t'] ∉ (build ⟨[], []⟩ ['x'] ['t'] (.failure ['o'] ['e'])).2.tmpDirs ∧
        (build ⟨[], []⟩ ['x'] ['t'] .success).2.builds
          = [] ++ [(pyBasename ['t'], siteDirPath ['t'])]) :=
  ⟨by decide, build_failure_atomic ⟨[], []⟩ ['x'] ['t'] ['o'] ['e'] (by decide)⟩

end LovsangSlides
